import Mathlib

/-!
Shallow embedding of sureal's paired-comparison subjective models
(src/sureal/pc_subjective_model.py): the Bradley-Terry Newton-Raphson
solver (BTNR), the Bradley-Terry fixed-point MLE solver (BTMLE) and the
Thurstone MLE solver, together with theorems settling the specification
claims about them.

Matrices and vectors are embedded as total functions over ℕ carrying their
dimensions separately, mirroring numpy arrays; all arithmetic is over ℝ.
External numerical routines (scipy's pseudo-inverse and minimize) are
modelled as explicit oracle parameters; the standard normal CDF
(scipy.stats.norm.cdf) is modelled by its defining integral.
-/

namespace Sureal

open MeasureTheory Set

/-- Convergence threshold DELTA_THR = 1e-8 shared by the BTNR and BTMLE loops. -/
noncomputable def DELTA_THR : ℝ := 1e-8

/-- Euclidean norm of the first n entries of a vector, as linalg.norm computes it
on a length-n array. -/
noncomputable def vecNormN (n : ℕ) (x : ℕ → ℝ) : ℝ :=
  Real.sqrt (∑ i ∈ Finset.range n, x i ^ 2)

/-- Standard normal cumulative distribution function, scipy.stats.norm.cdf. -/
noncomputable def normCdf (x : ℝ) : ℝ :=
  (∫ t in Iic x, Real.exp (-t ^ 2 / 2)) / Real.sqrt (2 * Real.pi)

lemma gaussFun_eq :
    (fun t : ℝ => Real.exp (-t ^ 2 / 2)) = fun t : ℝ => Real.exp (-(1/2 : ℝ) * t ^ 2) := by
  funext t; ring_nf

lemma integrable_gaussFun : Integrable fun t : ℝ => Real.exp (-t ^ 2 / 2) := by
  rw [gaussFun_eq]
  exact integrable_exp_neg_mul_sq (by norm_num)

lemma integral_gaussFun : (∫ t : ℝ, Real.exp (-t ^ 2 / 2)) = Real.sqrt (2 * Real.pi) := by
  rw [gaussFun_eq, integral_gaussian]
  rw [show (Real.pi / (1/2) : ℝ) = 2 * Real.pi by ring]

lemma integral_Iic_zero_gaussFun :
    (∫ t in Iic (0:ℝ), Real.exp (-t ^ 2 / 2)) = Real.sqrt (2 * Real.pi) / 2 := by
  have hint := integrable_gaussFun
  have hsplit : (∫ t in Iic (0:ℝ), Real.exp (-t ^ 2 / 2))
      + (∫ t in Ioi (0:ℝ), Real.exp (-t ^ 2 / 2)) = ∫ t : ℝ, Real.exp (-t ^ 2 / 2) := by
    rw [← setIntegral_union (Iic_disjoint_Ioi le_rfl) measurableSet_Ioi
      hint.integrableOn hint.integrableOn, Iic_union_Ioi, Measure.restrict_univ]
  have hsym : (∫ t in Iic (0:ℝ), Real.exp (-t ^ 2 / 2))
      = ∫ t in Ioi (0:ℝ), Real.exp (-t ^ 2 / 2) := by
    have h1 := integral_comp_neg_Iic (0:ℝ) (fun t : ℝ => Real.exp (-t ^ 2 / 2))
    simp only [neg_sq, neg_zero] at h1
    exact h1
  rw [integral_gaussFun] at hsplit
  rw [← hsym] at hsplit
  linarith

lemma normCdf_zero : normCdf 0 = 1/2 := by
  have hs : Real.sqrt (2 * Real.pi) ≠ 0 :=
    ne_of_gt (Real.sqrt_pos.mpr (by positivity))
  rw [normCdf, integral_Iic_zero_gaussFun]
  field_simp
  ring

/-! ### Thurstone MLE solver -/

/-- Epsilon guard epsilon = 1e-8 / M in log_likelihood_function. -/
noncomputable def thurstoneEps (M : ℕ) : ℝ := 1e-8 / M

/-- ThurstoneMlePairedCompSubjectiveModel.log_likelihood_function: entry (i,j) of
mtx is alpha[i,j] * log(cdf(v[j] - v[i]) + eps) + alpha[j,i] * log(1 - cdf(v[j] - v[i]) + eps)
(np.tile(v, (M,1)) has entry (i,j) equal to v[j], and the transpose is subtracted),
and the function returns np.sum(mtx). -/
noncomputable def thurstoneLlf (M : ℕ) (alpha : ℕ → ℕ → ℝ) (v : ℕ → ℝ) : ℝ :=
  ∑ i ∈ Finset.range M, ∑ j ∈ Finset.range M,
    (alpha i j * Real.log (normCdf (v j - v i) + thurstoneEps M)
      + alpha j i * Real.log (1 - normCdf (v j - v i) + thurstoneEps M))

/-- Spec-side definition (claim C1 wording): the matrix-wide sum of the per-pair
contributions alpha[i,j] * log(Phi(v_i - v_j) + eps) + alpha[j,i] * log(1 - Phi(v_i - v_j) + eps),
written exactly as the specification words it. -/
noncomputable def specLlfSum (M : ℕ) (alpha : ℕ → ℕ → ℝ) (v : ℕ → ℝ) : ℝ :=
  ∑ i ∈ Finset.range M, ∑ j ∈ Finset.range M,
    (alpha i j * Real.log (normCdf (v i - v j) + thurstoneEps M)
      + alpha j i * Real.log (1 - normCdf (v i - v j) + thurstoneEps M))

/-- Spec-side definition (claim C1 wording): the function the spec says is handed
to the optimizer, namely the negation of specLlfSum. -/
noncomputable def specNegLlf (M : ℕ) (alpha : ℕ → ℕ → ℝ) (v : ℕ → ℝ) : ℝ :=
  -specLlfSum M alpha v

/-! ### Result records and external oracles -/

/-- Result dict returned by each solver: quality_scores and quality_scores_std
(Python None modelled as Option.none). -/
structure PCResult where
  quality_scores : ℕ → ℝ
  quality_scores_std : Option (ℕ → ℝ)

/-- Outcome of scipy.optimize.minimize: a success flag and a parameter vector. -/
structure OptResult where
  success : Bool
  x : ℕ → ℝ

/-- Failure of the shape precondition `assert n == m` (a Python AssertionError). -/
def assertShapeMsg : String := "AssertionError"

/-- ThurstoneMlePairedCompSubjectiveModel._run_modeling as a result relation:
the matrix must be square; then the external optimizer oracle opt
(scipy.optimize.minimize, SLSQP) is handed the log-likelihood function, its
success flag is asserted, and on success its parameter vector is returned as
quality_scores with quality_scores_std absent. kwargs (zscore) are ignored. -/
def ThurstoneReturns (rows cols : ℕ) (alpha : ℕ → ℕ → ℝ)
    (opt : ((ℕ → ℝ) → ℝ) → OptResult) (zscore : Option Bool)
    (res : Except String PCResult) : Prop :=
  if rows = cols then
    (if (opt (thurstoneLlf rows alpha)).success
      then res = .ok ⟨(opt (thurstoneLlf rows alpha)).x, none⟩
      else res = .error "minimization is unsuccessful.")
  else res = .error assertShapeMsg

/-! ### Bradley-Terry Newton-Raphson solver (BTNR)

The mutable arrays rus and y start as zeros and only entries selected by the
mask gind = (gm > 0) are ever written, so each iteration is a pure function of
gamma. The pseudo-inverse scipy.linalg.pinv is an external oracle pinvFn over
which every theorem quantifies. -/

open scoped Classical

/-- gm = wm[0:nmo, :] + wm[:, 0:nmo].transpose(): symmetrized pairwise totals. -/
noncomputable def btnrGm (wm : ℕ → ℕ → ℝ) (i j : ℕ) : ℝ := wm i j + wm j i

/-- wins = np.sum(wm[0:nmo, :], axis=1): marginal win totals. -/
noncomputable def btnrWins (n : ℕ) (wm : ℕ → ℕ → ℝ) (i : ℕ) : ℝ :=
  ∑ j ∈ Finset.range n, wm i j

/-- rus[gind] = pius[gind] / (pius[gind] + piust[gind]) with pi = exp(gamma);
entries outside the mask remain 0. -/
noncomputable def btnrRus (wm : ℕ → ℕ → ℝ) (g : ℕ → ℝ) (i j : ℕ) : ℝ :=
  if 0 < btnrGm wm i j then Real.exp (g i) / (Real.exp (g i) + Real.exp (g j)) else 0

/-- y[gind] = gm[gind] * rus[gind]; entries outside the mask remain 0. -/
noncomputable def btnrY1 (wm : ℕ → ℕ → ℝ) (g : ℕ → ℝ) (i j : ℕ) : ℝ :=
  if 0 < btnrGm wm i j then btnrGm wm i j * btnrRus wm g i j else 0

/-- dL = wins + d2Q where d2Q = -np.sum(y, axis=1): the gradient vector. -/
noncomputable def btnrDL (n : ℕ) (wm : ℕ → ℕ → ℝ) (g : ℕ → ℝ) (i : ℕ) : ℝ :=
  btnrWins n wm i + -∑ j ∈ Finset.range n, btnrY1 wm g i j

/-- y[gind] = y[gind] * (1 - rus[gind]): the second-stage weighted terms. -/
noncomputable def btnrY2 (wm : ℕ → ℕ → ℝ) (g : ℕ → ℝ) (i j : ℕ) : ℝ :=
  if 0 < btnrGm wm i j then btnrY1 wm g i j * (1 - btnrRus wm g i j) else 0

/-- d2L = -diag(np.sum(y, axis=1)) followed by d2L[squaregind] = y[:, :-1][squaregind]:
masked entries (including masked diagonal ones) hold the weighted term, unmasked
diagonal entries hold the negated row sum, and the rest are 0. -/
noncomputable def btnrD2L (n : ℕ) (wm : ℕ → ℕ → ℝ) (g : ℕ → ℝ) (i j : ℕ) : ℝ :=
  if 0 < btnrGm wm i j then btnrY2 wm g i j
  else if i = j then -∑ k ∈ Finset.range n, btnrY2 wm g i k
  else 0

/-- change = np.hstack([pinv(d2L) @ dL, [0]]): the Newton step, padded with a
fixed 0 for the pinned n-th parameter. -/
noncomputable def btnrChange (n : ℕ) (wm : ℕ → ℕ → ℝ)
    (pinvFn : (ℕ → ℕ → ℝ) → ℕ → ℕ → ℝ) (g : ℕ → ℝ) (i : ℕ) : ℝ :=
  if i < n - 1 then
    ∑ j ∈ Finset.range (n - 1), pinvFn (btnrD2L n wm g) i j * btnrDL n wm g j
  else 0

/-- Iterates of gamma: gamma starts at zeros and each loop pass performs
gamma -= change. -/
noncomputable def btnrGammaSeq (n : ℕ) (wm : ℕ → ℕ → ℝ)
    (pinvFn : (ℕ → ℕ → ℝ) → ℕ → ℕ → ℝ) : ℕ → ℕ → ℝ
  | 0 => fun _ => 0
  | k + 1 => fun i =>
      btnrGammaSeq n wm pinvFn k i - btnrChange n wm pinvFn (btnrGammaSeq n wm pinvFn k) i

/-- The change vector computed during loop pass k (for k ≥ 1). -/
noncomputable def btnrChangeAt (n : ℕ) (wm : ℕ → ℕ → ℝ)
    (pinvFn : (ℕ → ℕ → ℝ) → ℕ → ℕ → ℝ) (k : ℕ) : ℕ → ℝ :=
  btnrChange n wm pinvFn (btnrGammaSeq n wm pinvFn (k - 1))

/-- The while loop over `linalg.norm(change) > DELTA_THR` exits after pass K:
change is initialized to sys.float_info.max so at least one pass runs, and K is
the first pass whose change norm is at most the threshold. -/
def BtnrExit (n : ℕ) (wm : ℕ → ℕ → ℝ)
    (pinvFn : (ℕ → ℕ → ℝ) → ℕ → ℕ → ℝ) (K : ℕ) : Prop :=
  1 ≤ K ∧ vecNormN n (btnrChangeAt n wm pinvFn K) ≤ DELTA_THR ∧
    ∀ k, 1 ≤ k → k < K → DELTA_THR < vecNormN n (btnrChangeAt n wm pinvFn k)

/-- scores = gamma; scores[-1] = 0.0 (the raw, non-exponentiated gamma with the
last entry forced to zero), before any z-score normalization. -/
noncomputable def btnrScoresAt (n : ℕ) (wm : ℕ → ℕ → ℝ)
    (pinvFn : (ℕ → ℕ → ℝ) → ℕ → ℕ → ℝ) (K i : ℕ) : ℝ :=
  if i = n - 1 then 0 else btnrGammaSeq n wm pinvFn K i

/-- np.mean(scores) over the n entries. -/
noncomputable def zscoreMean (n : ℕ) (s : ℕ → ℝ) : ℝ := (∑ i ∈ Finset.range n, s i) / n

/-- np.std(scores): the population standard deviation over the n entries. -/
noncomputable def zscoreStd (n : ℕ) (s : ℕ → ℝ) : ℝ :=
  Real.sqrt ((∑ i ∈ Finset.range n, (s i - zscoreMean n s) ^ 2) / n)

/-- scores = (scores - scores_mean) / scores_std. -/
noncomputable def zscoreVec (n : ℕ) (s : ℕ → ℝ) (i : ℕ) : ℝ :=
  (s i - zscoreMean n s) / zscoreStd n s

/-- The result dict built by the BTNR solver at exit pass K: kwargs supply
zscore_output (absent modelled as none, giving the default False), and a truthy
value standardizes the scores; quality_scores_std is None. -/
noncomputable def btnrResultAt (n : ℕ) (wm : ℕ → ℕ → ℝ)
    (pinvFn : (ℕ → ℕ → ℝ) → ℕ → ℕ → ℝ) (K : ℕ) (zscore : Option Bool) : PCResult :=
  { quality_scores :=
      if zscore.getD false then zscoreVec n (btnrScoresAt n wm pinvFn K)
      else btnrScoresAt n wm pinvFn K
  , quality_scores_std := none }

/-- BradleyTerryNewtonRaphsonPairedCompSubjectiveModel._run_modeling as a result
relation: shape assertion first, then the loop runs to its first exit pass. -/
def BtnrReturns (rows cols : ℕ) (wm : ℕ → ℕ → ℝ)
    (pinvFn : (ℕ → ℕ → ℝ) → ℕ → ℕ → ℝ) (zscore : Option Bool)
    (res : Except String PCResult) : Prop :=
  if rows = cols then
    ∃ K, BtnrExit rows wm pinvFn K ∧ res = .ok (btnrResultAt rows wm pinvFn K zscore)
  else res = .error assertShapeMsg

/-! ### Bradley-Terry MLE fixed-point solver (BTMLE) -/

/-- n = alpha + alpha.T: symmetrized counts. -/
noncomputable def btmleN (alpha : ℕ → ℕ → ℝ) (i j : ℕ) : ℝ := alpha i j + alpha j i

/-- np.sum(alpha, axis=1): total wins of item i. -/
noncomputable def btmleRowSum (M : ℕ) (alpha : ℕ → ℕ → ℝ) (i : ℕ) : ℝ :=
  ∑ j ∈ Finset.range M, alpha i j

/-- p = np.sum(alpha, axis=1) / np.sum(n / pp, axis=1) with pp[i,j] = p[i] + p[j]. -/
noncomputable def btmleU (M : ℕ) (alpha : ℕ → ℕ → ℝ) (p : ℕ → ℝ) (i : ℕ) : ℝ :=
  btmleRowSum M alpha i / ∑ j ∈ Finset.range M, btmleN alpha i j / (p i + p j)

/-- One loop pass: the fixed-point update followed by p = p / np.sum(p). -/
noncomputable def btmleStep (M : ℕ) (alpha : ℕ → ℕ → ℝ) (p : ℕ → ℝ) (i : ℕ) : ℝ :=
  btmleU M alpha p i / ∑ k ∈ Finset.range M, btmleU M alpha p k

/-- Iterates of p: p starts uniform at 1/M. -/
noncomputable def btmlePSeq (M : ℕ) (alpha : ℕ → ℕ → ℝ) : ℕ → ℕ → ℝ
  | 0 => fun _ => 1 / M
  | k + 1 => btmleStep M alpha (btmlePSeq M alpha k)

/-- The while loop over `change > DELTA_THR` with change = linalg.norm(p - p_prev)
exits after pass K, the first pass whose change is at most the threshold. -/
def BtmleExit (M : ℕ) (alpha : ℕ → ℕ → ℝ) (K : ℕ) : Prop :=
  1 ≤ K ∧
    vecNormN M (fun i => btmlePSeq M alpha K i - btmlePSeq M alpha (K - 1) i) ≤ DELTA_THR ∧
    ∀ k, 1 ≤ k → k < K →
      DELTA_THR < vecNormN M (fun i => btmlePSeq M alpha k i - btmlePSeq M alpha (k - 1) i)

/-- lbda_ii = np.sum(-alpha / p_i^2 + n / pp^2, axis=1). -/
noncomputable def btmleLbdaII (M : ℕ) (alpha : ℕ → ℕ → ℝ) (p : ℕ → ℝ) (i : ℕ) : ℝ :=
  ∑ j ∈ Finset.range M, (-alpha i j / p i ^ 2 + btmleN alpha i j / (p i + p j) ^ 2)

/-- lbda = lbda_ij + np.diag(lbda_ii) where lbda_ij = n / pp*2, which by Python
operator precedence is (n / pp) * 2. -/
noncomputable def btmleLbda (M : ℕ) (alpha : ℕ → ℕ → ℝ) (p : ℕ → ℝ) (i j : ℕ) : ℝ :=
  btmleN alpha i j / (p i + p j) * 2 + (if i = j then btmleLbdaII M alpha p i else 0)

/-- The (M+1)-by-(M+1) bordered matrix np.vstack([np.hstack([-lbda, 1]),
np.hstack([1, 0])]) whose pseudo-inverse is cova. -/
noncomputable def btmleBordered (M : ℕ) (alpha : ℕ → ℕ → ℝ) (p : ℕ → ℝ) (i j : ℕ) : ℝ :=
  if i < M ∧ j < M then -btmleLbda M alpha p i j
  else if i < M ∧ j = M then 1
  else if i = M ∧ j < M then 1
  else 0

/-- vari = np.diagonal(cova)[:-1]: the per-item variance estimates. -/
noncomputable def btmleVari (cova : ℕ → ℕ → ℝ) (i : ℕ) : ℝ := cova i i

/-- scores_std = np.sqrt(vari) / p: delta-method standard errors of log(p). -/
noncomputable def btmleScoresStd (cova : ℕ → ℕ → ℝ) (p : ℕ → ℝ) (i : ℕ) : ℝ :=
  Real.sqrt (btmleVari cova i) / p i

/-- scores = np.log(p). -/
noncomputable def btmleScoresAt (M : ℕ) (alpha : ℕ → ℕ → ℝ) (K i : ℕ) : ℝ :=
  Real.log (btmlePSeq M alpha K i)

/-- The result dict built by the BTMLE solver at exit pass K; np.linalg.pinv is
the external oracle pinvFn. -/
noncomputable def btmleResultAt (M : ℕ) (alpha : ℕ → ℕ → ℝ)
    (pinvFn : (ℕ → ℕ → ℝ) → ℕ → ℕ → ℝ) (K : ℕ) : PCResult :=
  { quality_scores := btmleScoresAt M alpha K
  , quality_scores_std := some (btmleScoresStd
      (pinvFn (btmleBordered M alpha (btmlePSeq M alpha K))) (btmlePSeq M alpha K)) }

/-- BradleyTerryMlePairedCompSubjectiveModel._run_modeling as a result relation:
shape assertion first, then the loop runs to its first exit pass. kwargs
(zscore) are ignored. -/
def BtmleReturns (rows cols : ℕ) (alpha : ℕ → ℕ → ℝ)
    (pinvFn : (ℕ → ℕ → ℝ) → ℕ → ℕ → ℝ) (zscore : Option Bool)
    (res : Except String PCResult) : Prop :=
  if rows = cols then
    ∃ K, BtmleExit rows alpha K ∧ res = .ok (btmleResultAt rows alpha pinvFn K)
  else res = .error assertShapeMsg

/-! ### Matrix helpers for reasoning about the pseudo-inverse oracle -/

/-- Product of two square m-by-m matrices stored as total functions. -/
noncomputable def matMulN (m : ℕ) (A B : ℕ → ℕ → ℝ) (i j : ℕ) : ℝ :=
  ∑ k ∈ Finset.range m, A i k * B k j

/-- Identity matrix entries. -/
noncomputable def idN (i j : ℕ) : ℝ := if i = j then 1 else 0

/-- Transpose of a matrix stored as a total function. -/
noncomputable def transposeN (A : ℕ → ℕ → ℝ) (i j : ℕ) : ℝ := A j i

/-- Agreement of two matrices on the m-by-m index range. -/
def EqOnN (m : ℕ) (A B : ℕ → ℕ → ℝ) : Prop := ∀ i < m, ∀ j < m, A i j = B i j

/-- The four Penrose equations characterizing the Moore-Penrose pseudo-inverse
(what np.linalg.pinv and scipy.linalg.pinv compute), on the m-by-m range. -/
def IsMoorePenrose (m : ℕ) (A P : ℕ → ℕ → ℝ) : Prop :=
  EqOnN m (matMulN m (matMulN m A P) A) A ∧
  EqOnN m (matMulN m (matMulN m P A) P) P ∧
  EqOnN m (transposeN (matMulN m A P)) (matMulN m A P) ∧
  EqOnN m (transposeN (matMulN m P A)) (matMulN m P A)

/-! ### Claim C7: the shape assertion rejects non-square input before any iteration -/

/-- C7: for every input whose aggregated comparison matrix is not square, each of
the three solvers fails with the fatal shape assertion: the only result any of
them can return is the assertion error, so no scores are produced and no
iterative update contributes to the outcome. -/
theorem shape_assert_rejects_nonsquare (rows cols : ℕ) (h : rows ≠ cols) :
    (∀ wm pinvFn zscore res,
      BtnrReturns rows cols wm pinvFn zscore res ↔ res = .error assertShapeMsg) ∧
    (∀ alpha pinvFn zscore res,
      BtmleReturns rows cols alpha pinvFn zscore res ↔ res = .error assertShapeMsg) ∧
    (∀ alpha opt zscore res,
      ThurstoneReturns rows cols alpha opt zscore res ↔ res = .error assertShapeMsg) := by
  refine ⟨fun _ _ _ _ => ?_, fun _ _ _ _ => ?_, fun _ _ _ _ => ?_⟩ <;>
    simp [BtnrReturns, BtmleReturns, ThurstoneReturns, h]

/-- Witness for C7 at the concrete non-square shape 2-by-3: all three solvers
return exactly the assertion error. -/
theorem shape_assert_rejects_nonsquare_witness :
    BtnrReturns 2 3 (fun _ _ => 0) (fun A => A) none (.error assertShapeMsg) ∧
    BtmleReturns 2 3 (fun _ _ => 0) (fun A => A) none (.error assertShapeMsg) ∧
    ThurstoneReturns 2 3 (fun _ _ => 0) (fun _ => ⟨true, fun _ => 0⟩) none
      (.error assertShapeMsg) :=
  ⟨((shape_assert_rejects_nonsquare 2 3 (by decide)).1 _ _ _ _).mpr rfl,
   ((shape_assert_rejects_nonsquare 2 3 (by decide)).2.1 _ _ _ _).mpr rfl,
   ((shape_assert_rejects_nonsquare 2 3 (by decide)).2.2 _ _ _ _).mpr rfl⟩

/-! ### Claim C6: the Thurstone solver checks the optimizer success flag -/

/-- C6: after the minimize call the optimizer's success flag decides the outcome:
on failure the fit aborts with the fatal assertion message and can return no
other result; on success it returns exactly the optimizer's parameter vector as
quality_scores with quality_scores_std absent. -/
theorem thurstone_success_flag (M : ℕ) (alpha : ℕ → ℕ → ℝ)
    (opt : ((ℕ → ℝ) → ℝ) → OptResult) (zscore : Option Bool) :
    ((opt (thurstoneLlf M alpha)).success = false →
      ∀ res, ThurstoneReturns M M alpha opt zscore res ↔
        res = .error "minimization is unsuccessful.") ∧
    ((opt (thurstoneLlf M alpha)).success = true →
      ∀ res, ThurstoneReturns M M alpha opt zscore res ↔
        res = .ok ⟨(opt (thurstoneLlf M alpha)).x, none⟩) := by
  constructor <;> intro h res <;> simp [ThurstoneReturns, h]

/-- Witness for C6: a failing optimizer oracle forces the fatal error result and
a succeeding one yields its parameter vector with std absent. -/
theorem thurstone_success_flag_witness :
    ThurstoneReturns 1 1 (fun _ _ => 0) (fun _ => ⟨false, fun _ => 0⟩) none
      (.error "minimization is unsuccessful.") ∧
    ThurstoneReturns 1 1 (fun _ _ => 0) (fun _ => ⟨true, fun _ => 1⟩) none
      (.ok ⟨fun _ => 1, none⟩) :=
  ⟨((thurstone_success_flag 1 (fun _ _ => 0) (fun _ => ⟨false, fun _ => 0⟩) none).1 rfl _).mpr
      rfl,
   ((thurstone_success_flag 1 (fun _ _ => 0) (fun _ => ⟨true, fun _ => 1⟩) none).2 rfl _).mpr
      rfl⟩

/-! ### Claim C8: zscore_output is consumed only by the BTNR solver -/

/-- C8: the zscore_output option is ignored by the BTMLE and Thurstone solvers
(their result relations are independent of it), while the BTNR solver, when the
option is present and truthy, replaces its score vector by
(scores - mean) / std before returning, and otherwise returns the raw scores. -/
theorem zscore_output_only_btnr :
    (∀ rows cols alpha pinvFn z1 z2 res,
      BtmleReturns rows cols alpha pinvFn z1 res ↔
        BtmleReturns rows cols alpha pinvFn z2 res) ∧
    (∀ rows cols alpha opt z1 z2 res,
      ThurstoneReturns rows cols alpha opt z1 res ↔
        ThurstoneReturns rows cols alpha opt z2 res) ∧
    (∀ n wm pinvFn K,
      btnrResultAt n wm pinvFn K (some true) =
        ⟨zscoreVec n (btnrScoresAt n wm pinvFn K), none⟩ ∧
      btnrResultAt n wm pinvFn K none = ⟨btnrScoresAt n wm pinvFn K, none⟩ ∧
      btnrResultAt n wm pinvFn K (some false) = ⟨btnrScoresAt n wm pinvFn K, none⟩) :=
  ⟨fun _ _ _ _ _ _ _ => Iff.rfl, fun _ _ _ _ _ _ _ => Iff.rfl,
   fun _ _ _ _ => ⟨rfl, rfl, rfl⟩⟩

/-! ### Claim C1: the objective handed to the Thurstone optimizer -/

/-- C1 (amended): the objective handed to the optimizer is the plain (unnegated)
matrix-wide sum of the per-pair contributions with the normal CDF applied to
v_j - v_i; equivalently, it equals the sum the claim describes evaluated at the
negated parameter vector, with no overall negation applied. -/
theorem thurstone_objective_unnegated (M : ℕ) (alpha : ℕ → ℕ → ℝ) (v : ℕ → ℝ) :
    thurstoneLlf M alpha v = specLlfSum M alpha (fun i => -v i) := by
  unfold thurstoneLlf specLlfSum
  refine Finset.sum_congr rfl fun i _ => Finset.sum_congr rfl fun j _ => ?_
  simp only [show ∀ a b : ℝ, -a - -b = b - a from fun a b => by ring]

/-- Concrete 2-by-2 count matrix with a single observed comparison, used to
refute the claim C1 equality. -/
noncomputable def c1Alpha (i j : ℕ) : ℝ := if i = 0 ∧ j = 1 then 1 else 0

/-- C1 (counterexample): at the all-zero parameter vector and the matrix
c1Alpha, the function handed to the optimizer evaluates to
2 log(1/2 + eps) < 0, whereas the negation the claim describes evaluates to
-2 log(1/2 + eps) > 0, so the minimized function is not the claimed negation. -/
theorem thurstone_objective_not_negated :
    thurstoneLlf 2 c1Alpha (fun _ => 0) ≠ specNegLlf 2 c1Alpha (fun _ => 0) := by
  have hlog : Real.log (1/2 + 1e-8/2) < 0 :=
    Real.log_neg (by norm_num) (by norm_num)
  have h1 : thurstoneLlf 2 c1Alpha (fun _ => 0) = 2 * Real.log (1/2 + 1e-8/2) := by
    norm_num [thurstoneLlf, c1Alpha, thurstoneEps, Finset.sum_range_succ,
      Finset.sum_range_zero, normCdf_zero]
    ring
  have h2 : specNegLlf 2 c1Alpha (fun _ => 0) = -(2 * Real.log (1/2 + 1e-8/2)) := by
    norm_num [specNegLlf, specLlfSum, c1Alpha, thurstoneEps, Finset.sum_range_succ,
      Finset.sum_range_zero, normCdf_zero]
    ring
  rw [h1, h2]
  intro h
  linarith

/-! ### Claim C4: BTNR returns raw gamma with last entry exactly zero -/

lemma btnrGammaSeq_last (n : ℕ) (wm : ℕ → ℕ → ℝ)
    (pinvFn : (ℕ → ℕ → ℝ) → ℕ → ℕ → ℝ) :
    ∀ k, btnrGammaSeq n wm pinvFn k (n - 1) = 0 := by
  intro k
  induction k with
  | zero => rfl
  | succ k ih => simp [btnrGammaSeq, btnrChange, ih]

/-- C4: on a convergent run the returned (pre-normalization) score vector is the
raw, non-exponentiated gamma vector itself — the assignment scores[-1] = 0.0 is
the identity because the padded Newton step never moves the pinned entry — and
its final entry is exactly 0. -/
theorem btnr_scores_raw_gamma_last_zero (n : ℕ) (wm : ℕ → ℕ → ℝ)
    (pinvFn : (ℕ → ℕ → ℝ) → ℕ → ℕ → ℝ) (K : ℕ)
    (hnn : ∀ i < n, ∀ j < n, 0 ≤ wm i j) (hexit : BtnrExit n wm pinvFn K) :
    btnrScoresAt n wm pinvFn K = btnrGammaSeq n wm pinvFn K ∧
    btnrScoresAt n wm pinvFn K (n - 1) = 0 := by
  have hlast := btnrGammaSeq_last n wm pinvFn K
  refine ⟨funext fun i => ?_, ?_⟩
  · unfold btnrScoresAt
    by_cases h : i = n - 1
    · rw [if_pos h, h, hlast]
    · rw [if_neg h]
  · unfold btnrScoresAt
    rw [if_pos rfl]

/-- On a symmetric non-negative matrix the very first Newton pass has zero
gradient, so the loop exits at pass 1 with gamma still the zero vector. -/
lemma btnr_symmetric_first_pass (n : ℕ) (wm : ℕ → ℕ → ℝ)
    (pinvFn : (ℕ → ℕ → ℝ) → ℕ → ℕ → ℝ)
    (hsym : ∀ i < n, ∀ j < n, wm i j = wm j i)
    (hnn : ∀ i < n, ∀ j < n, 0 ≤ wm i j) :
    btnrGammaSeq n wm pinvFn 1 = (fun _ => 0) ∧ BtnrExit n wm pinvFn 1 := by
  have hy1 : ∀ i < n, ∀ j < n, btnrY1 wm (fun _ => 0) i j = wm i j := by
    intro i hi j hj
    have hgm : btnrGm wm i j = 2 * wm i j := by
      unfold btnrGm
      rw [hsym j hj i hi]
      ring
    unfold btnrY1 btnrRus
    rw [hgm]
    rcases lt_or_eq_of_le (hnn i hi j hj) with hpos | hzero
    · rw [if_pos (by linarith), if_pos (by linarith)]
      simp [Real.exp_zero]
      ring
    · rw [if_neg (by rw [← hzero]; simp)]
      exact hzero
  have hdL : ∀ j < n, btnrDL n wm (fun _ => 0) j = 0 := by
    intro j hj
    unfold btnrDL btnrWins
    have : (∑ k ∈ Finset.range n, btnrY1 wm (fun _ => 0) j k)
        = ∑ k ∈ Finset.range n, wm j k :=
      Finset.sum_congr rfl fun k hk => hy1 j hj k (Finset.mem_range.mp hk)
    rw [this]
    ring
  have hchange : btnrChange n wm pinvFn (btnrGammaSeq n wm pinvFn 0) = fun _ => 0 := by
    funext i
    show btnrChange n wm pinvFn (fun _ => 0) i = 0
    unfold btnrChange
    rcases lt_or_ge i (n - 1) with hi | hi
    · rw [if_pos hi]
      refine Finset.sum_eq_zero fun j hj => ?_
      have hjn : j < n := lt_of_lt_of_le (Finset.mem_range.mp hj) (Nat.sub_le n 1)
      rw [hdL j hjn, mul_zero]
    · rw [if_neg (not_lt.mpr hi)]
  have hgamma : btnrGammaSeq n wm pinvFn 1 = (fun _ => 0) := by
    funext i
    show btnrGammaSeq n wm pinvFn 0 i - btnrChange n wm pinvFn (btnrGammaSeq n wm pinvFn 0) i = 0
    rw [hchange]
    show (0 : ℝ) - 0 = 0
    ring
  refine ⟨hgamma, le_refl 1, ?_, fun k hk1 hk2 => absurd (lt_of_le_of_lt hk1 hk2) (by omega)⟩
  unfold btnrChangeAt
  rw [show (1 : ℕ) - 1 = 0 from rfl, hchange]
  unfold vecNormN
  simp [DELTA_THR]
  norm_num

/-- Witness for C4 on the all-twos symmetric 2-by-2 matrix, whose loop exits on
the first pass: the returned scores are the raw gamma vector and the last entry
is exactly zero. -/
theorem btnr_scores_raw_gamma_last_zero_witness :
    btnrScoresAt 2 (fun _ _ => 2) (fun A => A) 1 = btnrGammaSeq 2 (fun _ _ => 2) (fun A => A) 1 ∧
    btnrScoresAt 2 (fun _ _ => 2) (fun A => A) 1 (2 - 1) = 0 :=
  btnr_scores_raw_gamma_last_zero 2 (fun _ _ => 2) (fun A => A) 1
    (fun _ _ _ _ => by norm_num)
    (btnr_symmetric_first_pass 2 (fun _ _ => 2) (fun A => A)
      (fun _ _ _ _ => rfl) (fun _ _ _ _ => by norm_num)).2

/-! ### Claim C9: BTNR on a perfectly symmetric matrix -/

/-- C9: for every square non-negative win-count matrix that is perfectly
symmetric, the BTNR loop converges (it exits on its very first pass) and the
returned score vector has all entries equal (indeed all zero). -/
theorem btnr_symmetric_scores_equal (n : ℕ) (wm : ℕ → ℕ → ℝ)
    (pinvFn : (ℕ → ℕ → ℝ) → ℕ → ℕ → ℝ)
    (hsym : ∀ i < n, ∀ j < n, wm i j = wm j i)
    (hnn : ∀ i < n, ∀ j < n, 0 ≤ wm i j) :
    ∃ K, BtnrExit n wm pinvFn K ∧
      ∀ i < n, ∀ j < n,
        btnrScoresAt n wm pinvFn K i = btnrScoresAt n wm pinvFn K j := by
  obtain ⟨hg, hex⟩ := btnr_symmetric_first_pass n wm pinvFn hsym hnn
  refine ⟨1, hex, fun i _ j _ => ?_⟩
  unfold btnrScoresAt
  rw [hg]
  simp

/-- Witness for C9 on the all-twos symmetric 2-by-2 matrix. -/
theorem btnr_symmetric_scores_equal_witness :
    ∃ K, BtnrExit 2 (fun _ _ => 2) (fun A => A) K ∧
      ∀ i < 2, ∀ j < 2,
        btnrScoresAt 2 (fun _ _ => 2) (fun A => A) K i
          = btnrScoresAt 2 (fun _ _ => 2) (fun A => A) K j :=
  btnr_symmetric_scores_equal 2 (fun _ _ => 2) (fun A => A)
    (fun _ _ _ _ => rfl) (fun _ _ _ _ => by norm_num)

/-! ### Claim C10: the BTMLE loop invariant -/

lemma btmle_invariant_aux (M : ℕ) (alpha : ℕ → ℕ → ℝ) (hM : 0 < M)
    (hnn : ∀ i < M, ∀ j < M, 0 ≤ alpha i j)
    (hwin : ∀ i < M, ∃ j, j < M ∧ 0 < alpha i j) :
    ∀ k, (∑ i ∈ Finset.range M, btmlePSeq M alpha k i) = 1 ∧
      ∀ i < M, 0 < btmlePSeq M alpha k i := by
  have hMR : (0 : ℝ) < M := by exact_mod_cast hM
  intro k
  induction k with
  | zero =>
    constructor
    · show (∑ _i ∈ Finset.range M, (1 / M : ℝ)) = 1
      rw [Finset.sum_const, Finset.card_range, nsmul_eq_mul]
      field_simp
    · intro i _
      show (0 : ℝ) < 1 / M
      positivity
  | succ k ih =>
    obtain ⟨hsum, hpos⟩ := ih
    have hupos : ∀ i < M, 0 < btmleU M alpha (btmlePSeq M alpha k) i := by
      intro i hi
      obtain ⟨j0, hj0, hj0pos⟩ := hwin i hi
      unfold btmleU
      apply div_pos
      · unfold btmleRowSum
        apply Finset.sum_pos'
        · exact fun j hj => hnn i hi j (Finset.mem_range.mp hj)
        · exact ⟨j0, Finset.mem_range.mpr hj0, hj0pos⟩
      · apply Finset.sum_pos'
        · intro j hj
          have hj' := Finset.mem_range.mp hj
          apply div_nonneg
          · unfold btmleN
            have := hnn i hi j hj'
            have := hnn j hj' i hi
            linarith
          · have := hpos i hi
            have := hpos j hj'
            linarith
        · refine ⟨j0, Finset.mem_range.mpr hj0, ?_⟩
          apply div_pos
          · unfold btmleN
            have := hnn j0 hj0 i hi
            linarith
          · have := hpos i hi
            have := hpos j0 hj0
            linarith
    have hS : 0 < ∑ j ∈ Finset.range M, btmleU M alpha (btmlePSeq M alpha k) j := by
      apply Finset.sum_pos'
      · intro j hj
        exact (hupos j (Finset.mem_range.mp hj)).le
      · obtain ⟨i0, hi0⟩ := Finset.nonempty_range_iff.mpr hM.ne'
        exact ⟨i0, hi0, hupos i0 (Finset.mem_range.mp hi0)⟩
    constructor
    · show (∑ i ∈ Finset.range M, btmleStep M alpha (btmlePSeq M alpha k) i) = 1
      unfold btmleStep
      rw [← Finset.sum_div]
      exact div_self hS.ne'
    · intro i hi
      show 0 < btmleStep M alpha (btmlePSeq M alpha k) i
      exact div_pos (hupos i hi) hS

/-- C10: under the implicit preconditions that the matrix is non-empty with
non-negative entries and every item has at least one win, after every loop pass
(and at pass 0, hence also at convergence) the probability vector p sums to
exactly 1 and every entry of p is strictly positive, so the final log transform
is applied only to positive values. -/
theorem btmle_p_sum_one_and_positive (M : ℕ) (alpha : ℕ → ℕ → ℝ) (hM : 0 < M)
    (hnn : ∀ i < M, ∀ j < M, 0 ≤ alpha i j)
    (hwin : ∀ i < M, ∃ j, j < M ∧ 0 < alpha i j) :
    ∀ k, (∑ i ∈ Finset.range M, btmlePSeq M alpha k i) = 1 ∧
      ∀ i < M, 0 < btmlePSeq M alpha k i :=
  btmle_invariant_aux M alpha hM hnn hwin

/-- Symmetric 2-by-2 one-comparison-each-way matrix used in witnesses. -/
noncomputable def exAlpha (i j : ℕ) : ℝ := if i = j then 0 else 1

lemma exAlpha_nonneg : ∀ i < 2, ∀ j < 2, (0:ℝ) ≤ exAlpha i j := by
  intro i _ j _
  unfold exAlpha
  split <;> norm_num

lemma exAlpha_win : ∀ i < 2, ∃ j, j < 2 ∧ (0:ℝ) < exAlpha i j := by
  intro i hi
  interval_cases i
  · exact ⟨1, by norm_num, by norm_num [exAlpha]⟩
  · exact ⟨0, by norm_num, by norm_num [exAlpha]⟩

/-- Witness for C10 on the symmetric 2-by-2 matrix after one pass. -/
theorem btmle_p_sum_one_and_positive_witness :
    (∑ i ∈ Finset.range 2, btmlePSeq 2 exAlpha 1 i) = 1 ∧
      ∀ i < 2, 0 < btmlePSeq 2 exAlpha 1 i :=
  btmle_p_sum_one_and_positive 2 exAlpha (by norm_num) exAlpha_nonneg exAlpha_win 1

/-! ### Claim C5: BTMLE scores are log p and exponentiate back to sum 1 -/

/-- C5 (counterexample): the all-zero 2-by-2 matrix is square and non-negative
and its loop converges (it exits at pass 2), yet exponentiating the returned
quality_scores does not give values summing to 1, because the unnormalizable
zero vector makes every later p exactly zero. -/
theorem btmle_exp_scores_not_sum_one_zero_matrix :
    BtmleExit 2 (fun _ _ => 0) 2 ∧
    (∑ i ∈ Finset.range 2, Real.exp (btmleScoresAt 2 (fun _ _ => 0) 2 i)) ≠ 1 := by
  have hp1 : ∀ i, btmlePSeq 2 (fun _ _ => 0) 1 i = 0 := by
    intro i
    show btmleStep 2 (fun _ _ => 0) (btmlePSeq 2 (fun _ _ => 0) 0) i = 0
    unfold btmleStep btmleU btmleRowSum
    simp
  have hp2 : ∀ i, btmlePSeq 2 (fun _ _ => 0) 2 i = 0 := by
    intro i
    show btmleStep 2 (fun _ _ => 0) (btmlePSeq 2 (fun _ _ => 0) 1) i = 0
    unfold btmleStep btmleU btmleRowSum
    simp
  have hp0 : ∀ j : ℕ, btmlePSeq 2 (fun _ _ => 0) 0 j = 1/2 := by
    intro j
    show (1 / ((2:ℕ):ℝ)) = 1/2
    norm_num
  refine ⟨⟨by norm_num, ?_, ?_⟩, ?_⟩
  · unfold vecNormN
    rw [show (2:ℕ) - 1 = 1 from rfl]
    simp only [Finset.sum_range_succ, Finset.sum_range_zero, hp1, hp2]
    norm_num [DELTA_THR, Real.sqrt_zero]
  · intro k hk1 hk2
    have hk : k = 1 := by omega
    subst hk
    unfold vecNormN
    rw [show (1:ℕ) - 1 = 0 from rfl]
    simp only [Finset.sum_range_succ, Finset.sum_range_zero, hp1, hp0]
    rw [show ((0:ℝ) + (0 - 1/2) ^ 2 + (0 - 1/2) ^ 2) = 1/2 by ring]
    rw [show (DELTA_THR : ℝ) = 1e-8 from rfl]
    rw [show (1e-8 : ℝ) = Real.sqrt ((1e-8) ^ 2) by rw [Real.sqrt_sq (by norm_num)]]
    apply Real.sqrt_lt_sqrt (by positivity)
    norm_num
  · unfold btmleScoresAt
    rw [Finset.sum_range_succ, Finset.sum_range_succ, Finset.sum_range_zero,
      hp2 0, hp2 1]
    rw [Real.log_zero, Real.exp_zero]
    norm_num

/-- C5 (amended): for every non-empty square non-negative count matrix in which
every item has at least one win and on which the BTMLE loop converges, the
returned quality_scores equal the natural logarithm of the converged p, and
exponentiating them entrywise yields values summing to exactly 1. -/
theorem btmle_scores_log_p_exp_sum_one (M : ℕ) (alpha : ℕ → ℕ → ℝ) (K : ℕ)
    (hM : 0 < M) (hnn : ∀ i < M, ∀ j < M, 0 ≤ alpha i j)
    (hwin : ∀ i < M, ∃ j, j < M ∧ 0 < alpha i j)
    (hexit : BtmleExit M alpha K) :
    btmleScoresAt M alpha K = (fun i => Real.log (btmlePSeq M alpha K i)) ∧
    (∑ i ∈ Finset.range M, Real.exp (btmleScoresAt M alpha K i)) = 1 := by
  obtain ⟨hsum, hpos⟩ := btmle_invariant_aux M alpha hM hnn hwin K
  refine ⟨rfl, ?_⟩
  rw [← hsum]
  refine Finset.sum_congr rfl fun i hi => ?_
  unfold btmleScoresAt
  exact Real.exp_log (hpos i (Finset.mem_range.mp hi))

lemma exAlpha_p1 : ∀ i < 2, btmlePSeq 2 exAlpha 1 i = 1/2 := by
  intro i hi
  show btmleStep 2 exAlpha (btmlePSeq 2 exAlpha 0) i = 1/2
  have hp0 : ∀ j : ℕ, btmlePSeq 2 exAlpha 0 j = 1/2 := by
    intro j
    show (1 / ((2:ℕ):ℝ)) = 1/2
    norm_num
  have hu : ∀ j < 2, btmleU 2 exAlpha (btmlePSeq 2 exAlpha 0) j = 1/2 := by
    intro j hj
    unfold btmleU btmleRowSum btmleN
    interval_cases j <;>
      rw [Finset.sum_range_succ, Finset.sum_range_succ, Finset.sum_range_zero,
        Finset.sum_range_succ, Finset.sum_range_succ, Finset.sum_range_zero] <;>
      rw [hp0 0, hp0 1] <;>
      norm_num [exAlpha]
  unfold btmleStep
  rw [Finset.sum_range_succ, Finset.sum_range_succ, Finset.sum_range_zero,
    hu 0 (by norm_num), hu 1 (by norm_num), hu i hi]
  norm_num

lemma exAlpha_exit1 : BtmleExit 2 exAlpha 1 := by
  refine ⟨le_refl 1, ?_, fun k hk1 hk2 => absurd (lt_of_le_of_lt hk1 hk2) (by omega)⟩
  unfold vecNormN
  rw [show (1:ℕ) - 1 = 0 from rfl]
  have hp0 : ∀ j : ℕ, btmlePSeq 2 exAlpha 0 j = 1/2 := by
    intro j
    show (1 / ((2:ℕ):ℝ)) = 1/2
    norm_num
  have h0 := exAlpha_p1 0 (by norm_num)
  have h1 := exAlpha_p1 1 (by norm_num)
  simp only [Finset.sum_range_succ, Finset.sum_range_zero, h0, h1, hp0]
  norm_num [DELTA_THR, Real.sqrt_zero]

/-- Witness for the amended C5 on the symmetric 2-by-2 matrix, whose loop
converges at pass 1. -/
theorem btmle_scores_log_p_exp_sum_one_witness :
    btmleScoresAt 2 exAlpha 1 = (fun i => Real.log (btmlePSeq 2 exAlpha 1 i)) ∧
    (∑ i ∈ Finset.range 2, Real.exp (btmleScoresAt 2 exAlpha 1 i)) = 1 :=
  btmle_scores_log_p_exp_sum_one 2 exAlpha 1 (by norm_num) exAlpha_nonneg exAlpha_win
    exAlpha_exit1

/-! ### Claim C3: the BTMLE standard errors and the variance sign -/

lemma matMulN_congr (m : ℕ) (A A' B B' : ℕ → ℕ → ℝ)
    (hA : EqOnN m A A') (hB : EqOnN m B B') :
    EqOnN m (matMulN m A B) (matMulN m A' B') := by
  intro i hi j hj
  unfold matMulN
  refine Finset.sum_congr rfl fun k hk => ?_
  rw [hA i hi k (Finset.mem_range.mp hk), hB k (Finset.mem_range.mp hk) j hj]

/-- Restriction of a total-function matrix to a Mathlib m-by-m matrix. -/
noncomputable def toMat (m : ℕ) (A : ℕ → ℕ → ℝ) : Matrix (Fin m) (Fin m) ℝ :=
  Matrix.of fun i j => A i j

lemma toMat_matMulN (m : ℕ) (A B : ℕ → ℕ → ℝ) :
    toMat m (matMulN m A B) = toMat m A * toMat m B := by
  ext i j
  show matMulN m A B i j = ∑ k : Fin m, A i k * B k j
  unfold matMulN
  rw [← Fin.sum_univ_eq_sum_range (fun k => A i k * B k j) m]

lemma toMat_idN (m : ℕ) : toMat m idN = 1 := by
  ext i j
  show idN i.val j.val = _
  rw [Matrix.one_apply]
  unfold idN
  by_cases h : i = j
  · rw [if_pos (by rw [h]), if_pos h]
  · rw [if_neg (fun hv => h (Fin.ext hv)), if_neg h]

lemma toMat_transposeN (m : ℕ) (A : ℕ → ℕ → ℝ) :
    toMat m (transposeN A) = Matrix.transpose (toMat m A) := by
  ext i j
  rfl

lemma eqOnN_toMat (m : ℕ) (A B : ℕ → ℕ → ℝ) (h : EqOnN m A B) :
    toMat m A = toMat m B := by
  ext i j
  exact h i i.isLt j j.isLt

lemma toMat_eqOnN (m : ℕ) (A B : ℕ → ℕ → ℝ) (h : toMat m A = toMat m B) :
    EqOnN m A B := by
  intro i hi j hj
  exact congrFun (congrFun h ⟨i, hi⟩) ⟨j, hj⟩

/-- A two-sided inverse on the m-by-m range satisfies the four Penrose
equations there. -/
lemma isMoorePenrose_of_inverse (m : ℕ) (A P : ℕ → ℕ → ℝ)
    (hPA : EqOnN m (matMulN m P A) idN) (hAP : EqOnN m (matMulN m A P) idN) :
    IsMoorePenrose m A P := by
  have h1 : toMat m P * toMat m A = 1 := by
    rw [← toMat_matMulN, eqOnN_toMat m _ _ hPA, toMat_idN]
  have h2 : toMat m A * toMat m P = 1 := by
    rw [← toMat_matMulN, eqOnN_toMat m _ _ hAP, toMat_idN]
  refine ⟨toMat_eqOnN m _ _ ?_, toMat_eqOnN m _ _ ?_, toMat_eqOnN m _ _ ?_,
    toMat_eqOnN m _ _ ?_⟩
  · rw [toMat_matMulN, toMat_matMulN, h2, one_mul]
  · rw [toMat_matMulN, toMat_matMulN, h1, one_mul]
  · rw [toMat_transposeN, toMat_matMulN, h2, Matrix.transpose_one]
  · rw [toMat_transposeN, toMat_matMulN, h1, Matrix.transpose_one]

/-- The Moore-Penrose pseudo-inverse of a matrix that has a two-sided inverse on
the m-by-m range is that inverse: any P satisfying the Penrose equations agrees
with it there. -/
lemma moorePenrose_eq_of_inverse (m : ℕ) (A P Q : ℕ → ℕ → ℝ)
    (hQA : EqOnN m (matMulN m Q A) idN) (hAQ : EqOnN m (matMulN m A Q) idN)
    (hP : IsMoorePenrose m A P) : EqOnN m P Q := by
  have h1 : toMat m Q * toMat m A = 1 := by
    rw [← toMat_matMulN, eqOnN_toMat m _ _ hQA, toMat_idN]
  have h2 : toMat m A * toMat m Q = 1 := by
    rw [← toMat_matMulN, eqOnN_toMat m _ _ hAQ, toMat_idN]
  have hp1 : toMat m A * toMat m P * toMat m A = toMat m A := by
    have h := eqOnN_toMat m _ _ hP.1
    rwa [toMat_matMulN, toMat_matMulN] at h
  apply toMat_eqOnN
  calc toMat m P = 1 * toMat m P * 1 := by rw [one_mul, mul_one]
    _ = toMat m Q * toMat m A * toMat m P * (toMat m A * toMat m Q) := by
        rw [h1, h2]
    _ = toMat m Q * (toMat m A * toMat m P * toMat m A) * toMat m Q := by
        simp only [mul_assoc]
    _ = toMat m Q * toMat m A * toMat m Q := by rw [hp1]
    _ = 1 * toMat m Q := by rw [h1]
    _ = toMat m Q := one_mul _

/-- Failing input for claim C3: the symmetric 3-item count matrix
[[0,1,0],[1,0,21],[0,21,0]], on which the loop exits at its first pass with p
exactly uniform. -/
noncomputable def c3Alpha (i j : ℕ) : ℝ :=
  if i = 0 ∧ j = 1 then 1
  else if i = 1 ∧ j = 0 then 1
  else if i = 1 ∧ j = 2 then 21
  else if i = 2 ∧ j = 1 then 21
  else 0

/-- The 4-by-4 bordered matrix the code builds from c3Alpha at the converged
(uniform) p, computed exactly. -/
noncomputable def c3B (i j : ℕ) : ℝ :=
  if i = 0 then
    (if j = 0 then 9/2 else if j = 1 then -6 else if j = 2 then 0
      else if j = 3 then 1 else 0)
  else if i = 1 then
    (if j = 0 then -6 else if j = 1 then 99 else if j = 2 then -126
      else if j = 3 then 1 else 0)
  else if i = 2 then
    (if j = 0 then 0 else if j = 1 then -126 else if j = 2 then 189/2
      else if j = 3 then 1 else 0)
  else if i = 3 then
    (if j = 0 then 1 else if j = 1 then 1 else if j = 2 then 1 else 0)
  else 0

/-- The exact two-sided inverse of c3B (hence its Moore-Penrose pseudo-inverse). -/
noncomputable def c3P (i j : ℕ) : ℝ :=
  if i = 0 then
    (if j = 0 then -18/77 else if j = 1 then 26/231 else if j = 2 then 4/33
      else if j = 3 then 30/11 else 0)
  else if i = 1 then
    (if j = 0 then 26/231 else if j = 1 then -4/77 else if j = 2 then -2/33
      else if j = 3 then -9/11 else 0)
  else if i = 2 then
    (if j = 0 then 4/33 else if j = 1 then -2/33 else if j = 2 then -2/33
      else if j = 3 then -10/11 else 0)
  else if i = 3 then
    (if j = 0 then 30/11 else if j = 1 then -9/11 else if j = 2 then -10/11
      else if j = 3 then -189/11 else 0)
  else 0

lemma c3_p0 : ∀ j : ℕ, btmlePSeq 3 c3Alpha 0 j = 1/3 := by
  intro j
  show (1 / ((3:ℕ):ℝ)) = 1/3
  norm_num

lemma c3_u : ∀ j < 3, btmleU 3 c3Alpha (btmlePSeq 3 c3Alpha 0) j = 1/3 := by
  intro j hj
  unfold btmleU btmleRowSum btmleN
  interval_cases j <;>
    simp only [Finset.sum_range_succ, Finset.sum_range_zero, c3_p0] <;>
    norm_num [c3Alpha]

lemma c3_p1 : ∀ i < 3, btmlePSeq 3 c3Alpha 1 i = 1/3 := by
  intro i hi
  show btmleStep 3 c3Alpha (btmlePSeq 3 c3Alpha 0) i = 1/3
  unfold btmleStep
  simp only [Finset.sum_range_succ, Finset.sum_range_zero]
  rw [c3_u 0 (by norm_num), c3_u 1 (by norm_num), c3_u 2 (by norm_num), c3_u i hi]
  norm_num

lemma c3_exit : BtmleExit 3 c3Alpha 1 := by
  refine ⟨le_refl 1, ?_, fun k hk1 hk2 => absurd (lt_of_le_of_lt hk1 hk2) (by omega)⟩
  unfold vecNormN
  rw [show (1:ℕ) - 1 = 0 from rfl]
  have h0 := c3_p1 0 (by norm_num)
  have h1 := c3_p1 1 (by norm_num)
  have h2 := c3_p1 2 (by norm_num)
  simp only [Finset.sum_range_succ, Finset.sum_range_zero, h0, h1, h2, c3_p0]
  norm_num [DELTA_THR, Real.sqrt_zero]

lemma c3_bordered : EqOnN 4 (btmleBordered 3 c3Alpha (btmlePSeq 3 c3Alpha 1)) c3B := by
  intro i hi j hj
  unfold btmleBordered btmleLbda btmleLbdaII btmleN
  have h0 := c3_p1 0 (by norm_num)
  have h1 := c3_p1 1 (by norm_num)
  have h2 := c3_p1 2 (by norm_num)
  interval_cases i <;> interval_cases j <;>
    simp only [Finset.sum_range_succ, Finset.sum_range_zero, h0, h1, h2] <;>
    norm_num [c3Alpha, c3B]

lemma c3_BP : EqOnN 4 (matMulN 4 c3B c3P) idN := by
  intro i hi j hj
  unfold matMulN
  interval_cases i <;> interval_cases j <;>
    simp only [Finset.sum_range_succ, Finset.sum_range_zero] <;>
    norm_num [c3B, c3P, idN]

lemma c3_PB : EqOnN 4 (matMulN 4 c3P c3B) idN := by
  intro i hi j hj
  unfold matMulN
  interval_cases i <;> interval_cases j <;>
    simp only [Finset.sum_range_succ, Finset.sum_range_zero] <;>
    norm_num [c3B, c3P, idN]

lemma c3_embB_PB : EqOnN 4 (matMulN 4 c3P (btmleBordered 3 c3Alpha (btmlePSeq 3 c3Alpha 1)))
    idN := by
  intro i hi j hj
  rw [matMulN_congr 4 c3P c3P (btmleBordered 3 c3Alpha (btmlePSeq 3 c3Alpha 1)) c3B
    (fun _ _ _ _ => rfl) c3_bordered i hi j hj]
  exact c3_PB i hi j hj

lemma c3_embB_BP : EqOnN 4 (matMulN 4 (btmleBordered 3 c3Alpha (btmlePSeq 3 c3Alpha 1)) c3P)
    idN := by
  intro i hi j hj
  rw [matMulN_congr 4 (btmleBordered 3 c3Alpha (btmlePSeq 3 c3Alpha 1)) c3B c3P c3P
    c3_bordered (fun _ _ _ _ => rfl) i hi j hj]
  exact c3_BP i hi j hj

/-- C3: evaluating the code at the failing input c3Alpha: the BTMLE loop
converges on its very first pass (p is exactly uniform), and any matrix
satisfying the Penrose equations for the bordered matrix the code then builds —
that is, the pseudo-inverse np.linalg.pinv computes — has top-left diagonal
entry -18/77, so the first variance put under np.sqrt is negative and the
resulting standard error is NaN rather than a non-negative number. -/
theorem btmle_std_negative_variance_c3 :
    BtmleExit 3 c3Alpha 1 ∧
    ∀ P, IsMoorePenrose 4 (btmleBordered 3 c3Alpha (btmlePSeq 3 c3Alpha 1)) P →
      btmleVari P 0 < 0 := by
  refine ⟨c3_exit, fun P hP => ?_⟩
  have hPQ : EqOnN 4 P c3P :=
    moorePenrose_eq_of_inverse 4 (btmleBordered 3 c3Alpha (btmlePSeq 3 c3Alpha 1)) P c3P
      c3_embB_PB c3_embB_BP hP
  unfold btmleVari
  rw [hPQ 0 (by norm_num) 0 (by norm_num)]
  norm_num [c3P]

/-- Witness for C3: the concrete inverse c3P satisfies the Penrose equations for
the bordered matrix, and the variance entry it yields is negative. -/
theorem btmle_std_negative_variance_c3_witness :
    IsMoorePenrose 4 (btmleBordered 3 c3Alpha (btmlePSeq 3 c3Alpha 1)) c3P ∧
    btmleVari c3P 0 < 0 :=
  have hmp := isMoorePenrose_of_inverse 4
    (btmleBordered 3 c3Alpha (btmlePSeq 3 c3Alpha 1)) c3P c3_embB_PB c3_embB_BP
  ⟨hmp, btmle_std_negative_variance_c3.2 c3P hmp⟩

end Sureal
